import Mathlib

set_option linter.unusedVariables false

/-!
Verification of the Transfer_Learning repository (JDA / TCA / CORAL notebooks).

The repository's core is the JDA iterative subspace solver
(`JDA.fit_predict` in the JDA notebook) and its one-shot degenerate
variant TCA (`TCA.fit` / `TCA.fit_predict`).  This file shallowly embeds
the numerically exact parts of that code over the rationals and settles
the specification claims about it.

Modelling conventions:
* Python floats are modelled by `ℚ`.  Every arithmetic step of the code
  that is exact over the rationals (the weighting vectors `e`, the
  alignment terms `M0`, `N`, `M`, the class counts, the accuracy
  fraction) is embedded computably.
* The only steps whose values leave `ℚ` are the square roots inside the
  two column normalisations and the Frobenius normalisation, the `exp`
  inside the rbf kernel, and `scipy.linalg.eig`.  Claims that touch the
  Frobenius normalisation are stated over `ℝ`, with the norm introduced
  as a real number `s` satisfying `s ^ 2 = frobSq M ∧ 0 ≤ s`; the other
  irrational steps are abstracted as explicit function parameters, and
  the theorems quantify over all of them, so nothing is assumed about
  their behaviour.
* Fallible Python code (scalar division by zero raises
  `ZeroDivisionError`; `sklearn.metrics.accuracy_score` rejects a `None`
  label vector; `return acc` with `acc` never assigned raises
  `UnboundLocalError`) is embedded in the `Except PyErr` monad, written
  with explicit `match` so that every step unfolds definitionally.
* The downstream pipeline of one JDA round after the alignment matrix
  `M` is built (Frobenius normalisation, kernel, generalized
  eigenproblem, projection, column normalisation, 1-nearest-neighbour
  prediction) is deterministic in `M` once the pooled data and the
  configuration are fixed, because the pooled matrix `X`, `H`, `K`,
  `lamb` and `dim` do not change across rounds.  The driver model
  therefore abstracts that pipeline as a parameter
  `predict : Mat (ns + nt) → (Fin nt → ℤ)` applied to the raw
  (pre-normalisation) alignment matrix of the round, and the driver
  theorems quantify over every such `predict`.
-/

/-- Python exception outcomes reachable in the embedded code. -/
inductive PyErr where
  /-- Python `ZeroDivisionError`: scalar `1 / 0` or `-1 / 0`. -/
  | zeroDivision
  /-- Models `sklearn.metrics.accuracy_score(None, y_pred)` rejecting `None`. -/
  | invalidTarget
  /-- Models `UnboundLocalError` from `return acc` when the loop never ran. -/
  | unboundLocal
  /-- Models `TypeError` from downstream use of a `None` kernel matrix. -/
  | typeErr
  /-- Models `ValueError`: truth value of a multi-element array is ambiguous. -/
  | valueErr
deriving DecidableEq, Repr

/-- Length-`n` rational vector (a NumPy `(n, 1)` column). -/
abbrev Vec (n : ℕ) := Fin n → ℚ

/-- Models `n × n` rational matrix. -/
abbrev Mat (n : ℕ) := Fin n → Fin n → ℚ

/-- Split a pooled index `i < ns + nt` into a source index (`i < ns`) or a
target index (`i - ns`), mirroring the `np.vstack` layout of the weighting
vectors: source rows first, target rows after the `ns` offset. -/
def splitIdx (ns nt : ℕ) (i : Fin (ns + nt)) : Fin ns ⊕ Fin nt :=
  if h : (i : ℕ) < ns then .inl ⟨i, h⟩
  else .inr ⟨(i : ℕ) - ns, by omega⟩

/-- JDA line `e = np.vstack((1 / ns * np.ones((ns, 1)), -1 / nt * np.ones((nt, 1))))`:
the marginal MMD weighting vector, `1/ns` on the `ns` source positions
followed by `-1/nt` on the `nt` target positions. -/
def eMarg (ns nt : ℕ) : Vec (ns + nt) := fun i =>
  match splitIdx ns nt i with
  | .inl _ => 1 / (ns : ℚ)
  | .inr _ => -1 / (nt : ℚ)

/-- TCA line `Q = np.vstack((1 / ns * np.ones((ns, 1)), -1 / nt * np.ones((nt, 1))))`:
textually the same stacking as JDA's `e`. -/
def tcaQ (ns nt : ℕ) : Vec (ns + nt) := fun i =>
  match splitIdx ns nt i with
  | .inl _ => 1 / (ns : ℚ)
  | .inr _ => -1 / (nt : ℚ)

/-- JDA line `M0 = e * e.T * C`: the `(n,1) * (1,n)` broadcast is the outer
product, then the scalar class count `C` multiplies every entry. -/
def M0mat {n : ℕ} (C : ℕ) (e : Vec n) : Mat n := fun i j => e i * e j * (C : ℚ)

/-- TCA line `M = Q * Q.T`: the outer product of `Q` with itself
(no class-count factor in TCA). -/
def tcaMraw (ns nt : ℕ) : Mat (ns + nt) := fun i j => tcaQ ns nt i * tcaQ ns nt j

/-- JDA line `C = len(np.unique(Ys))`: the number of distinct source label
values. -/
def numClasses {ns : ℕ} (Ys : Fin ns → ℤ) : ℕ :=
  (Finset.image Ys Finset.univ).card

/-- Models `len(Ys[np.where(Ys == c)])`: how many source samples carry label `c`. -/
def srcCount {ns : ℕ} (Ys : Fin ns → ℤ) (c : ℤ) : ℕ :=
  (Finset.univ.filter fun i => Ys i = c).card

/-- Models `len(Y_tar_pseudo[np.where(Y_tar_pseudo == c)])`: how many pseudo-labelled
target samples carry label `c`. -/
def tgtCount {nt : ℕ} (p : Fin nt → ℤ) (c : ℤ) : ℕ :=
  (Finset.univ.filter fun j => p j = c).card

/-- JDA line `for c in range(1, C + 1)`: the classes the conditional loop
visits, as integer label values `1, …, C`.  Label values greater than `C`
are never visited. -/
def classRangeZ (C : ℕ) : List ℤ := (List.range C).map fun (k : ℕ) => (k : ℤ) + 1

/-- JDA line `e[np.isinf(e)] = 0`.  Over `ℚ` there are no infinities; in the
source this guard is also effect-free on every reachable state, because the
zero-count divisions that were meant to produce `±Inf` are Python *scalar*
divisions `1 / len(...)`, which raise `ZeroDivisionError` before any value
is assigned, so no `Inf` entry ever exists when this line runs. -/
def zeroOutInf {n : ℕ} (v : Vec n) : Vec n := v

/-- One pass of the conditional-term class loop body (JDA lines
`e = np.zeros((n, 1))` … `e[np.isinf(e)] = 0`) for class `c`: the fresh
class weighting vector, or the `ZeroDivisionError` that the scalar
divisions `1 / len(Ys[Ys == c])` and `-1 / len(Y_tar_pseudo[Y_tar_pseudo == c])`
raise when the respective count is zero.  The source-side division is
evaluated first, matching the statement order in the source. -/
def classVec {ns nt : ℕ} (Ys : Fin ns → ℤ) (p : Fin nt → ℤ) (c : ℤ) :
    Except PyErr (Vec (ns + nt)) :=
  if srcCount Ys c = 0 then .error .zeroDivision
  else if tgtCount p c = 0 then .error .zeroDivision
  else .ok (zeroOutInf fun i =>
    match splitIdx ns nt i with
    | .inl s => if Ys s = c then 1 / (srcCount Ys c : ℚ) else 0
    | .inr t => if p t = c then -1 / (tgtCount p c : ℚ) else 0)

/-- The conditional-term loop `for c in classes: … N = N + np.dot(e, e.T)`,
threading the loop variable `e` (which the source rebinds) and the
accumulator `N`. -/
def condGo {ns nt : ℕ} (Ys : Fin ns → ℤ) (p : Fin nt → ℤ) :
    List ℤ → Vec (ns + nt) × Mat (ns + nt) →
    Except PyErr (Vec (ns + nt) × Mat (ns + nt))
  | [], acc => .ok acc
  | c :: rest, acc =>
    match classVec Ys p c with
    | .error err => .error err
    | .ok e => condGo Ys p rest (e, fun i j => acc.2 i j + e i * e j)

/-- The conditional-term loop of one JDA round (JDA lines
`for c in range(1, C + 1): … N = N + np.dot(e, e.T)`), started from `N = 0`
and from the current value `e0` of the variable `e`.  Returns the *final*
value of the loop variable `e` together with the accumulated `N`: the
source loop rebinds `e`, so after the loop `e` holds the last class's
conditional vector and the caller's `e` is clobbered. -/
def condLoop {ns nt : ℕ} (Ys : Fin ns → ℤ) (p : Fin nt → ℤ) (C : ℕ)
    (e0 : Vec (ns + nt)) : Except PyErr (Vec (ns + nt) × Mat (ns + nt)) :=
  condGo Ys p (classRangeZ C) (e0, fun _ _ => 0)

/-- Models `acc = sklearn.metrics.accuracy_score(Yt, Y_tar_pseudo)`: the fraction of
agreeing positions.  `accuracy_score` rejects a `None` ground-truth vector,
so the absent-`Yt` call errors instead of skipping the accuracy. -/
def accScore {nt : ℕ} (Yt : Option (Fin nt → ℤ)) (p : Fin nt → ℤ) :
    Except PyErr ℚ :=
  match Yt with
  | none => .error .invalidTarget
  | some y => .ok (((Finset.univ.filter fun j => y j = p j).card : ℚ) / (nt : ℚ))

/-- The loop-carried state of `JDA.fit_predict`: the current value of the
(shared, clobbered) variable `e` and the current pseudo-label vector
(`None` before the first round).  A pseudo-label vector produced by the
classifier always has length `nt`, so the source's `len(Y_tar_pseudo) == nt`
test is `Option.isSome` here. -/
structure JDAState (ns nt : ℕ) where
  e : Vec (ns + nt)
  pseudo : Option (Fin nt → ℤ)

/-- One iteration of the `for t in range(self.T)` loop (JDA lines
`N = 0` … `list_acc.append(acc)`).  Returns the next state, the round's
accuracy, and — as a ghost observation used only by theorems — the raw
alignment matrix `M = M0 + N` of the round, before its Frobenius
normalisation.  The normalisation, kernel, eigensolver, projection and
1-NN prediction are abstracted as `predict` applied to that raw matrix
(see the file header). -/
def roundBody {ns nt : ℕ} (predict : Mat (ns + nt) → (Fin nt → ℤ))
    (Ys : Fin ns → ℤ) (Yt : Option (Fin nt → ℤ)) (C : ℕ)
    (s : JDAState ns nt) :
    Except PyErr (JDAState ns nt × ℚ × Mat (ns + nt)) :=
  let M0 := M0mat C s.e
  let loopOut := match s.pseudo with
    | some p => condLoop Ys p C s.e
    | none => .ok (s.e, fun _ _ => 0)
  match loopOut with
  | .error err => .error err
  | .ok eN =>
    let Mraw : Mat (ns + nt) := fun i j => M0 i j + eN.2 i j
    let pNew := predict Mraw
    match accScore Yt pNew with
    | .error err => .error err
    | .ok acc => .ok (⟨eN.1, some pNew⟩, acc, Mraw)

/-- The remaining-iterations recursion of `JDA.fit_predict`: runs `t` more
rounds, threading the state, the accuracy history `list_acc` and the
current value of the variable `acc` (`none` while unassigned).  With zero
rounds left it performs `return acc, Y_tar_pseudo, list_acc`; if `acc`
was never assigned (`T = 0`) that `return` raises `UnboundLocalError`. -/
def jdaRun {ns nt : ℕ} (predict : Mat (ns + nt) → (Fin nt → ℤ))
    (Ys : Fin ns → ℤ) (Yt : Option (Fin nt → ℤ)) (C : ℕ) :
    ℕ → JDAState ns nt → List ℚ → Option ℚ →
    Except PyErr (ℚ × Option (Fin nt → ℤ) × List ℚ)
  | 0, s, accs, accVar =>
    match accVar with
    | none => .error .unboundLocal
    | some a => .ok (a, s.pseudo, accs)
  | t + 1, s, accs, _ =>
    match roundBody predict Ys Yt C s with
    | .error err => .error err
    | .ok r => jdaRun predict Ys Yt C t r.1 (accs ++ [r.2.1]) (some r.2.1)

/-- Models `JDA.fit_predict(Xs, Ys, Xt, Yt)` with `T` iterations, restricted to the
label-and-alignment dataflow (the projection pipeline is `predict`, see the
file header): starts with `list_acc = []`, the marginal `e`, no
pseudo-labels, and `C = len(np.unique(Ys))`. -/
def fitPredict {ns nt : ℕ} (predict : Mat (ns + nt) → (Fin nt → ℤ))
    (Ys : Fin ns → ℤ) (Yt : Option (Fin nt → ℤ)) (T : ℕ) :
    Except PyErr (ℚ × Option (Fin nt → ℤ) × List ℚ) :=
  jdaRun predict Ys Yt (numClasses Ys) T ⟨eMarg ns nt, none⟩ [] none

/-- The driver state at entry of round `t` (after `t` completed rounds). -/
def stateAt {ns nt : ℕ} (predict : Mat (ns + nt) → (Fin nt → ℤ))
    (Ys : Fin ns → ℤ) (Yt : Option (Fin nt → ℤ)) (C : ℕ) :
    ℕ → Except PyErr (JDAState ns nt)
  | 0 => .ok ⟨eMarg ns nt, none⟩
  | t + 1 =>
    match stateAt predict Ys Yt C t with
    | .error err => .error err
    | .ok s =>
      match roundBody predict Ys Yt C s with
      | .error err => .error err
      | .ok r => .ok r.1

/-- The matrix `M0 = e * e.T * C` as computed at the start of round `t`,
from the value the variable `e` then holds. -/
def M0At {ns nt : ℕ} (predict : Mat (ns + nt) → (Fin nt → ℤ))
    (Ys : Fin ns → ℤ) (Yt : Option (Fin nt → ℤ)) (t : ℕ) :
    Except PyErr (Mat (ns + nt)) :=
  match stateAt predict Ys Yt (numClasses Ys) t with
  | .error err => .error err
  | .ok s => .ok (M0mat (numClasses Ys) s.e)

/-- The raw alignment matrix `M = M0 + N` built in round `t`, before its
Frobenius normalisation. -/
def MrawAt {ns nt : ℕ} (predict : Mat (ns + nt) → (Fin nt → ℤ))
    (Ys : Fin ns → ℤ) (Yt : Option (Fin nt → ℤ)) (t : ℕ) :
    Except PyErr (Mat (ns + nt)) :=
  match stateAt predict Ys Yt (numClasses Ys) t with
  | .error err => .error err
  | .ok s =>
    match roundBody predict Ys Yt (numClasses Ys) s with
    | .error err => .error err
    | .ok r => .ok r.2.2

/-- The squared Frobenius norm `‖M‖_F ^ 2` of a square rational matrix;
`np.linalg.norm(M, 'fro')` is its (generally irrational) square root. -/
def frobSq {n : ℕ} (M : Mat n) : ℚ := ∑ i, ∑ j, (M i j) ^ 2

/-- The round-0 raw alignment matrix of JDA: `M0 + N` with the marginal `e`
and `N = 0` (no pseudo-labels exist yet). -/
def jdaM0raw (ns nt : ℕ) (Ys : Fin ns → ℤ) : Mat (ns + nt) :=
  M0mat (numClasses Ys) (eMarg ns nt)


/-! ## The kernel evaluator

`def kernel(ker, X1, X2, gamma)` from the JDA notebook (and the textually
near-identical one in the TCA notebook).  Arrays are modelled as untyped
row-major rational matrices `PyArr`, matching NumPy's dynamic shapes.  The
rbf branch applies `exp`, which is transcendental, so the scalar entry of
the rbf Gram matrix is an explicit function parameter `rbfE` (taking the
two columns and `gamma`); every theorem about the kernel quantifies over
it.  The linear branch (`sklearn.metrics.pairwise.linear_kernel` of
`X1.T`, whose rows are the columns of `X1`) is exact and embedded
concretely. -/

/-- Untyped NumPy array: a row-major rational matrix. -/
abbrev PyArr := List (List ℚ)

/-- Number of columns (length of the first row). -/
def colCount (A : PyArr) : ℕ := (A.headD []).length

/-- Column `j` of `A`. -/
def getCol (A : PyArr) (j : ℕ) : List ℚ := A.map fun r => r.getD j 0

/-- Models `A.T`. -/
def transposeL (A : PyArr) : PyArr := (List.range (colCount A)).map (getCol A)

/-- Dot product of two equal-length lists. -/
def dotL (u v : List ℚ) : ℚ := (List.zipWith (fun a b => a * b) u v).sum

/-- Pairwise Gram matrix between the columns of `A` and the columns of `B`,
with a pluggable scalar entry: `entry = dotL` gives
`sklearn.metrics.pairwise.linear_kernel(A.T, B.T)`. -/
def gramL (entry : List ℚ → List ℚ → ℚ) (A B : PyArr) : PyArr :=
  (transposeL A).map fun ca => (transposeL B).map fun cb => entry ca cb

/-- Total number of entries of an array. -/
def numelL (A : PyArr) : ℕ := (A.map List.length).sum

/-- First entry of an array (its single element when `numelL A = 1`). -/
def firstEntry (A : PyArr) : ℚ := (A.headD []).headD 0

/-- Python truthiness of `X2` in the JDA notebook's `if X2:`: `None` is
falsy; a NumPy array of one element has the truth value of that element;
an empty array is falsy; any other array raises
`ValueError: The truth value of an array with more than one element is
ambiguous`.  (Every call in the repository passes `X2 = None`.) -/
def truthyArr : Option PyArr → Except PyErr Bool
  | none => .ok false
  | some A =>
    if numelL A = 0 then .ok false
    else if numelL A = 1 then .ok (decide (firstEntry A ≠ 0))
    else .error .valueErr

/-- Python falsiness of the `ker` argument (`if not ker`): `None` or the
empty string. -/
def kerFalsy : Option String → Bool
  | none => true
  | some s => s == ""

/-- The JDA notebook's `kernel(ker, X1, X2, gamma)`.  An unrecognised
kernel name falls through every branch, leaving `K = None`, which the
function returns normally (`.ok none`); no exception of any kind is
raised for it.  The function is pure: its output is determined by its
arguments. -/
def kernelJ (rbfE : List ℚ → List ℚ → ℚ → ℚ) (ker : Option String)
    (X1 : PyArr) (X2 : Option PyArr) (gamma : ℚ) : Except PyErr (Option PyArr) :=
  if kerFalsy ker = true ∨ ker = some "primal" then .ok (some X1)
  else if ker = some "linear" then
    match truthyArr X2 with
    | .error err => .error err
    | .ok true => .ok (some (gramL dotL X1 (X2.getD [])))
    | .ok false => .ok (some (gramL dotL X1 X1))
  else if ker = some "rbf" then
    match truthyArr X2 with
    | .error err => .error err
    | .ok true => .ok (some (gramL (fun u v => rbfE u v gamma) X1 (X2.getD [])))
    | .ok false => .ok (some (gramL (fun u v => rbfE u v gamma) X1 X1))
  else .ok none

/-- The TCA notebook's `kernel`: identical except that the `X2` test is
`if X2 is not None:` instead of `if X2:`. -/
def kernelT (rbfE : List ℚ → List ℚ → ℚ → ℚ) (ker : Option String)
    (X1 : PyArr) (X2 : Option PyArr) (gamma : ℚ) : Except PyErr (Option PyArr) :=
  if kerFalsy ker = true ∨ ker = some "primal" then .ok (some X1)
  else if ker = some "linear" then
    match X2 with
    | some B => .ok (some (gramL dotL X1 B))
    | none => .ok (some (gramL dotL X1 X1))
  else if ker = some "rbf" then
    match X2 with
    | some B => .ok (some (gramL (fun u v => rbfE u v gamma) X1 B))
    | none => .ok (some (gramL (fun u v => rbfE u v gamma) X1 X1))
  else .ok none

/-! ## The eigensolver slice

JDA lines `w, V = scipy.linalg.eig(a, b)`, `ind = np.argsort(w)`,
`A = V[:, ind[:self.dim]]` (and the same lines in `TCA.fit`).
Eigenvalues are complex (`re, im` as a rational pair); `np.argsort` on a
complex array sorts lexicographically by real part then imaginary part.
The sort is modelled by an insertion sort; NumPy's default quicksort may
order *ties* differently, but every claim below depends only on the
length of the index list, which is the same for every sorting algorithm
and every comparator.  The comparator compares rationals exactly via
integer cross-multiplication of the normalised `num`/`den` fields.
`V` is held column-wise (`V.getD k []` is the `k`-th eigenvector), since
the only use of `V` is the column selection `V[:, ind[:dim]]`. -/

/-- Exact rational `≤` as a boolean, via integer cross-multiplication. -/
def ratLeB (x y : ℚ) : Bool := decide (x.num * (y.den : ℤ) ≤ y.num * (x.den : ℤ))

/-- Exact rational equality as a boolean, via integer cross-multiplication. -/
def ratEqB (x y : ℚ) : Bool := decide (x.num * (y.den : ℤ) = y.num * (x.den : ℤ))

/-- NumPy's lexicographic order on complex values: real part first,
imaginary part as tie-break. -/
def cplxLeB (a b : ℚ × ℚ) : Bool :=
  if ratEqB a.1 b.1 then ratLeB a.2 b.2 else ratLeB a.1 b.1

/-- Insert into a sorted list. -/
def insertSorted {α : Type} (le : α → α → Bool) (x : α) : List α → List α
  | [] => [x]
  | y :: ys => if le x y then x :: y :: ys else y :: insertSorted le x ys

/-- Insertion sort. -/
def insertionSortBy {α : Type} (le : α → α → Bool) : List α → List α
  | [] => []
  | x :: xs => insertSorted le x (insertionSortBy le xs)

/-- Models `np.argsort(w)`: the index list that sorts `w`. -/
def argsortNp (w : List (ℚ × ℚ)) : List ℕ :=
  (insertionSortBy (fun a b => cplxLeB a.2 b.2) w.enum).map Prod.fst

/-- Models `A = V[:, ind[:self.dim]]`: take the first `dim` sorted indices
(Python slicing `ind[:dim]` silently truncates at the end of the list —
it never raises) and select those columns of `V`. -/
def selectBasis (w : List (ℚ × ℚ)) (V : List (List ℚ)) (dim : ℕ) :
    List (List ℚ) :=
  ((argsortNp w).take dim).map fun k => V.getD k []

theorem insertSorted_length {α : Type} (le : α → α → Bool) (x : α) :
    ∀ l : List α, (insertSorted le x l).length = l.length + 1 := by
  intro l
  induction l with
  | nil => rfl
  | cons y ys ih =>
    simp only [insertSorted]
    split
    · simp
    · simp [ih]

theorem insertionSortBy_length {α : Type} (le : α → α → Bool) :
    ∀ l : List α, (insertionSortBy le l).length = l.length := by
  intro l
  induction l with
  | nil => rfl
  | cons x xs ih => simp [insertionSortBy, insertSorted_length, ih]

theorem argsortNp_length (w : List (ℚ × ℚ)) :
    (argsortNp w).length = w.length := by
  simp [argsortNp, insertionSortBy_length]


/-! ## Store-level model of `fit_predict` (frame property)

To settle the frame claim (caller arrays are never mutated in place),
`JDA.fit_predict` and `TCA.fit_predict` are re-traced at the level of
array *effects*: a heap of NumPy arrays, where every NumPy call that
creates an array allocates a fresh cell and every in-place assignment
(`e[...] = v` in the class loop and `Z /= np.linalg.norm(Z, axis=0)`)
writes to a named cell.  In the source those are the only in-place
writes; in particular the pooled renormalisation is
`X = np.true_divide(X, ...)` (a fresh array, rebinding the name), not the
commented-out in-place `X /= ...`.  Arrays that are provably never
written after creation and never alias a caller array (`M0`, `N`, `M`,
`H`, `a`, `b`, `V`, `A`, the intermediate products) are carried as pure
values; the arrays that receive writes (`e`, `Z`), the caller inputs, and
the long-lived pooled matrix `X` (which `K` aliases under the
primal/unset kernel) live in the store.  The numerically irrational
steps are again explicit function parameters (`NumKernels`), and the
frame theorem quantifies over all of them. -/

/-- The store: cell `a` holds one NumPy array. -/
abbrev Heap := List PyArr

/-- Allocate a fresh array, returning the new store and the new address. -/
def halloc (h : Heap) (v : PyArr) : Heap × ℕ := (h ++ [v], h.length)

/-- In-place write to cell `a`. -/
def hwrite (h : Heap) (a : ℕ) (v : PyArr) : Heap := h.set a v

/-- Read cell `a`. -/
def hread (h : Heap) (a : ℕ) : PyArr := h.getD a []

/-- Models `np.hstack((A, B))` for equal row counts. -/
def hstackL (A B : PyArr) : PyArr := List.zipWith (fun r s => r ++ s) A B

/-- The single column of an `(n, 1)` array, as a flat list. -/
def col0 (A : PyArr) : List ℚ := A.map fun r => r.headD 0

/-- A 1-D array (stored as a single row). -/
def row0 (A : PyArr) : List ℚ := A.headD []

/-- Models `np.zeros((n, 1))`. -/
def zerosColL (n : ℕ) : PyArr := List.replicate n [0]

/-- Models `np.vstack((1 / ns * np.ones((ns, 1)), -1 / nt * np.ones((nt, 1))))`. -/
def eMargColL (ns nt : ℕ) : PyArr :=
  List.replicate ns [1 / (ns : ℚ)] ++ List.replicate nt [-1 / (nt : ℚ)]

/-- Models `len(arr[np.where(arr == c)])` over a flat value list. -/
def countQ (l : List ℚ) (c : ℚ) : ℕ := (l.filter fun x => decide (x = c)).length

/-- Models `range(1, C + 1)` as float label values. -/
def classRangeQ (C : ℕ) : List ℚ := (List.range C).map fun (k : ℕ) => (k : ℚ) + 1

/-- Models `len(np.unique(l))`. -/
def dedupLen (l : List ℚ) : ℕ := l.dedup.length

/-- Models `np.dot(e, e.T)` for a column array `e`. -/
def outerColL (e : PyArr) : PyArr :=
  e.map fun r => e.map fun s => r.headD 0 * s.headD 0

/-- Scalar times array. -/
def scaleL (c : ℚ) (A : PyArr) : PyArr := A.map fun r => r.map fun x => c * x

/-- Entrywise sum. -/
def addL (A B : PyArr) : PyArr := List.zipWith (List.zipWith (fun a b => a + b)) A B

/-- Matrix product. -/
def matmulL (A B : PyArr) : PyArr :=
  A.map fun r => (transposeL B).map fun cb => dotL r cb

/-- Models `np.eye(n)`. -/
def eyeL (n : ℕ) : PyArr :=
  (List.range n).map fun i => (List.range n).map fun j => if i = j then 1 else 0

/-- Models `H = np.eye(n) - 1 / n * np.ones((n, n))`. -/
def HmatL (n : ℕ) : PyArr :=
  (List.range n).map fun i =>
    (List.range n).map fun j => (if i = j then (1 : ℚ) else 0) - 1 / (n : ℚ)

/-- Models `A[:, :k]`. -/
def takeColsL (k : ℕ) (A : PyArr) : PyArr := A.map (List.take k)

/-- Models `A[:, k:]`. -/
def dropColsL (k : ℕ) (A : PyArr) : PyArr := A.map (List.drop k)

/-- Models `e[np.where(Ys == c)] = v` on a column array `e` whose first `ns = len(ys)`
rows are the source positions. -/
def assignSrcL (e : PyArr) (ys : List ℚ) (c v : ℚ) : PyArr :=
  e.enum.map fun p =>
    if p.1 < ys.length ∧ ys.getD p.1 0 = c then [v] else p.2

/-- Models `e[tuple(inds)] = v` with `inds = [i + ns for i in np.where(ps == c)]`. -/
def assignTgtL (e : PyArr) (ps : List ℚ) (c v : ℚ) (ns : ℕ) : PyArr :=
  e.enum.map fun p =>
    if ns ≤ p.1 ∧ p.1 < ns + ps.length ∧ ps.getD (p.1 - ns) 0 = c then [v] else p.2

/-- The numerically irrational collaborators, as opaque parameters: `colNorm`
models dividing each column by its Euclidean norm (`np.true_divide(X, …)`
and `Z /= np.linalg.norm(Z, axis=0)` both apply it); `froNorm` models
`M / np.linalg.norm(M, 'fro')`; `eigF` models `scipy.linalg.eig(a, b)`
returning the eigenvalue list and the column-wise eigenvector matrix;
`knn` models the fitted 1-NN collaborator `clf.fit(Xs_new, Ys.ravel());
clf.predict(Xt_new)`; `rbfE` is the rbf Gram entry.  All frame theorems
quantify over every instantiation of these. -/
structure NumKernels where
  rbfE : List ℚ → List ℚ → ℚ → ℚ
  colNorm : PyArr → PyArr
  froNorm : PyArr → PyArr
  eigF : PyArr → PyArr → List (ℚ × ℚ) × List (List ℚ)
  knn : PyArr → List ℚ → PyArr → List ℚ

/-- One pass of the conditional class loop at store level: allocate the
fresh `e = np.zeros((n, 1))`, then the two in-place masked assignments
(each preceded by the scalar division that raises on a zero count), then
the effect-free `e[np.isinf(e)] = 0` (its mask is empty, see
`zeroOutInf`).  On an exception the store at the raise point is
returned. -/
def classStepHeap (h : Heap) (aYs aP : ℕ) (ns n : ℕ) (c : ℚ) :
    Heap × Except PyErr ℕ :=
  let al := halloc h (zerosColL n)
  let h1 := al.1
  let aE := al.2
  let ys := col0 (hread h1 aYs)
  let sc := countQ ys c
  if sc = 0 then (h1, .error .zeroDivision)
  else
    let h2 := hwrite h1 aE (assignSrcL (hread h1 aE) ys c (1 / (sc : ℚ)))
    let ps := row0 (hread h2 aP)
    let tc := countQ ps c
    if tc = 0 then (h2, .error .zeroDivision)
    else
      let h3 := hwrite h2 aE (assignTgtL (hread h2 aE) ps c (-1 / (tc : ℚ)) ns)
      (h3, .ok aE)

/-- The conditional loop at store level, threading the rebound loop
variable `e` (an address) and the value of the accumulator `N`. -/
def condLoopHeap (aYs aP : ℕ) (ns n : ℕ) :
    List ℚ → Heap → ℕ → PyArr → Heap × Except PyErr (ℕ × PyArr)
  | [], h, aE, acc => (h, .ok (aE, acc))
  | c :: rest, h, aE, acc =>
    match classStepHeap h aYs aP ns n c with
    | (h1, .error err) => (h1, .error err)
    | (h1, .ok aE1) =>
      condLoopHeap aYs aP ns n rest h1 aE1 (addL acc (outerColL (hread h1 aE1)))

/-- JDA lines `K = kernel(...)` through `Y_tar_pseudo = clf.predict(Xt_new)`
at store level, shared verbatim by one JDA round and by `TCA.fit_predict`
(which passes its own `kernel` function).  `Z` is allocated fresh by
`np.dot(A.T, K)` and then written in place by `Z /= np.linalg.norm(Z,
axis=0)`; `Xs_new`/`Xt_new` are read-only views of `Z`.  A `None` kernel
matrix makes the downstream `np.linalg.multi_dot` raise. -/
def projectHeap (P : NumKernels) (kfun : PyArr → Except PyErr (Option PyArr))
    (ker : Option String) (lamb : ℚ) (dim ns nt : ℕ) (aYs aX : ℕ)
    (Mn : PyArr) (h : Heap) : Heap × Except PyErr ℕ :=
  let n := ns + nt
  match kfun (hread h aX) with
  | .error err => (h, .error err)
  | .ok none => (h, .error .typeErr)
  | .ok (some K) =>
    let m := (hread h aX).length
    let nEye := if ker = some "primal" then m else n
    let aMat := addL (matmulL (matmulL K Mn) (transposeL K)) (scaleL lamb (eyeL nEye))
    let bMat := matmulL (matmulL K (HmatL n)) (transposeL K)
    let wv := P.eigF aMat bMat
    let Abasis := selectBasis wv.1 wv.2 dim
    let Zv := Abasis.map fun colA => (transposeL K).map fun ck => dotL colA ck
    let alZ := halloc h Zv
    let h1 := alZ.1
    let aZ := alZ.2
    let h2 := hwrite h1 aZ (P.colNorm (hread h1 aZ))
    let Zn := hread h2 aZ
    let XsNew := transposeL (takeColsL ns Zn)
    let XtNew := transposeL (dropColsL ns Zn)
    let labels := P.knn XsNew (col0 (hread h2 aYs)) XtNew
    let alP := halloc h2 [labels]
    (alP.1, .ok alP.2)

/-- One `for t in range(self.T)` round at store level: `M0 = e * e.T * C`
(value), the conditional loop (guarded by the presence and length of the
pseudo-label array), `M = M0 + N` then its Frobenius normalisation
(values), then the shared projection block.  Returns the new addresses of
the loop variable `e` and of `Y_tar_pseudo`. -/
def roundHeap (P : NumKernels) (ker : Option String) (gamma lamb : ℚ)
    (dim ns nt C : ℕ) (aYs aX : ℕ) (h : Heap) (aE : ℕ) (aP : Option ℕ) :
    Heap × Except PyErr (ℕ × ℕ) :=
  let n := ns + nt
  let M0v := scaleL (C : ℚ) (outerColL (hread h aE))
  let loopRes :=
    match aP with
    | some ap =>
      if (row0 (hread h ap)).length = nt then
        condLoopHeap aYs ap ns n (classRangeQ C) h aE
          (List.replicate n (List.replicate n 0))
      else (h, .ok (aE, List.replicate n (List.replicate n 0)))
    | none => (h, .ok (aE, List.replicate n (List.replicate n 0)))
  match loopRes with
  | (h1, .error err) => (h1, .error err)
  | (h1, .ok r) =>
    let Mn := P.froNorm (addL M0v r.2)
    match projectHeap P (fun X1 => kernelJ P.rbfE ker X1 none gamma)
        ker lamb dim ns nt aYs aX Mn h1 with
    | (h2, .error err) => (h2, .error err)
    | (h2, .ok aPnew) => (h2, .ok (r.1, aPnew))

/-- The `T`-round loop at store level; on an exception the store at the
raise point is returned (the exception propagates out of `fit_predict`
without further writes). -/
def jdaHeapGo (P : NumKernels) (ker : Option String) (gamma lamb : ℚ)
    (dim ns nt C : ℕ) (aYs aX : ℕ) :
    ℕ → Heap → ℕ → Option ℕ → Heap
  | 0, h, _, _ => h
  | t + 1, h, aE, aP =>
    match roundHeap P ker gamma lamb dim ns nt C aYs aX h aE aP with
    | (h1, .error _) => h1
    | (h1, .ok r) => jdaHeapGo P ker gamma lamb dim ns nt C aYs aX t h1 r.1 (some r.2)

/-- Models `JDA.fit_predict` at store level: the pooled matrix
`X = np.hstack((Xs.T, Xt.T))` is a fresh allocation, its renormalisation
`X = np.true_divide(X, np.linalg.norm(X, axis=0))` allocates again (it is
not the in-place `X /= ...`), the marginal `e` is allocated, and the
`T`-round loop runs.  Returns the final store. -/
def jdaFitPredictHeap (P : NumKernels) (ker : Option String) (gamma lamb : ℚ)
    (dim T : ℕ) (aXs aYs aXt aYt : ℕ) (h0 : Heap) : Heap :=
  let al1 := halloc h0 (hstackL (transposeL (hread h0 aXs)) (transposeL (hread h0 aXt)))
  let al2 := halloc al1.1 (P.colNorm (hread al1.1 al1.2))
  let h2 := al2.1
  let aX := al2.2
  let ns := (hread h2 aXs).length
  let nt := (hread h2 aXt).length
  let al3 := halloc h2 (eMargColL ns nt)
  let C := dedupLen (col0 (hread al3.1 aYs))
  jdaHeapGo P ker gamma lamb dim ns nt C aYs aX T al3.1 al3.2 none

/-- Models `TCA.fit_predict` at store level: `TCA.fit` (pooling, renormalisation,
`Q`, `M = Q * Q.T`, Frobenius normalisation, the projection block) followed
by the 1-NN prediction; `accuracy_score` only reads `Yt`. -/
def tcaFitPredictHeap (P : NumKernels) (ker : Option String) (gamma lamb : ℚ)
    (dim : ℕ) (aXs aYs aXt aYt : ℕ) (h0 : Heap) : Heap :=
  let al1 := halloc h0 (hstackL (transposeL (hread h0 aXs)) (transposeL (hread h0 aXt)))
  let al2 := halloc al1.1 (P.colNorm (hread al1.1 al1.2))
  let h2 := al2.1
  let aX := al2.2
  let ns := (hread h2 aXs).length
  let nt := (hread h2 aXt).length
  let al3 := halloc h2 (eMargColL ns nt)
  let h3 := al3.1
  let Mn := P.froNorm (outerColL (hread h3 al3.2))
  (projectHeap P (fun X1 => kernelT P.rbfE ker X1 none gamma)
    ker lamb dim ns nt aYs aX Mn h3).1

/-- Store extension: every cell that existed in `h0` is still present in
`h` with the same contents (fresh cells may have been appended, and
writes may have hit fresh cells only). -/
def extH (h0 h : Heap) : Prop :=
  h0.length ≤ h.length ∧ ∀ i, i < h0.length → hread h i = hread h0 i

theorem extH_refl (h : Heap) : extH h h := ⟨le_refl _, fun _ _ => rfl⟩

theorem extH_alloc (h0 h : Heap) (v : PyArr) (he : extH h0 h) :
    extH h0 (halloc h v).1 := by
  constructor
  · have h1 := he.1
    simp only [halloc, List.length_append, List.length_cons, List.length_nil]
    omega
  · intro i hi
    have hlt : i < h.length := lt_of_lt_of_le hi he.1
    simp only [halloc, hread]
    rw [List.getD_append _ _ _ _ hlt]
    exact he.2 i hi

theorem extH_write (h0 h : Heap) (a : ℕ) (v : PyArr) (he : extH h0 h)
    (ha : h0.length ≤ a) : extH h0 (hwrite h a v) := by
  constructor
  · simpa [hwrite] using he.1
  · intro i hi
    have hne : a ≠ i := by omega
    simp only [hwrite, hread]
    rw [List.getD_eq_getElem?_getD, List.getElem?_set_ne hne,
      ← List.getD_eq_getElem?_getD]
    exact he.2 i hi

theorem classStepHeap_ext (h0 h : Heap) (aYs aP ns n : ℕ) (c : ℚ)
    (he : extH h0 h) : extH h0 (classStepHeap h aYs aP ns n c).1 := by
  have h1e : extH h0 (halloc h (zerosColL n)).1 := extH_alloc _ _ _ he
  have haddr : h0.length ≤ (halloc h (zerosColL n)).2 := by
    simpa [halloc] using he.1
  unfold classStepHeap
  dsimp only
  split
  · exact h1e
  · split
    · exact extH_write h0 _ _ _ h1e haddr
    · exact extH_write h0 _ _ _ (extH_write h0 _ _ _ h1e haddr) haddr

theorem condLoopHeap_ext (h0 : Heap) (aYs aP ns n : ℕ) :
    ∀ (cs : List ℚ) (h : Heap) (aE : ℕ) (acc : PyArr), extH h0 h →
      extH h0 (condLoopHeap aYs aP ns n cs h aE acc).1 := by
  intro cs
  induction cs with
  | nil => intro h aE acc he; exact he
  | cons c rest ih =>
    intro h aE acc he
    have hstep := classStepHeap_ext h0 h aYs aP ns n c he
    unfold condLoopHeap
    cases hcs : classStepHeap h aYs aP ns n c with
    | mk h1 r =>
      rw [hcs] at hstep
      cases r with
      | error err => exact hstep
      | ok aE1 => exact ih h1 aE1 _ hstep

theorem projectHeap_ext (h0 : Heap) (P : NumKernels)
    (kfun : PyArr → Except PyErr (Option PyArr)) (ker : Option String)
    (lamb : ℚ) (dim ns nt aYs aX : ℕ) (Mn : PyArr) (h : Heap)
    (he : extH h0 h) :
    extH h0 (projectHeap P kfun ker lamb dim ns nt aYs aX Mn h).1 := by
  unfold projectHeap
  cases kfun (hread h aX) with
  | error err => exact he
  | ok K =>
    cases K with
    | none => exact he
    | some Kv =>
      dsimp only
      refine extH_alloc h0 _ _ (extH_write h0 _ _ _ (extH_alloc h0 h _ he) ?_)
      simpa [halloc] using he.1

theorem roundHeap_ext (h0 : Heap) (P : NumKernels) (ker : Option String)
    (gamma lamb : ℚ) (dim ns nt C aYs aX : ℕ) (h : Heap) (aE : ℕ)
    (aP : Option ℕ) (he : extH h0 h) :
    extH h0 (roundHeap P ker gamma lamb dim ns nt C aYs aX h aE aP).1 := by
  have hproj : ∀ (h1 : Heap) (Mn : PyArr) (x : ℕ), extH h0 h1 →
      extH h0 ((match projectHeap P (fun X1 => kernelJ P.rbfE ker X1 none gamma)
            ker lamb dim ns nt aYs aX Mn h1 with
        | (h2, .error err) => (h2, Except.error err)
        | (h2, .ok aPnew) => (h2, Except.ok (x, aPnew))) :
          Heap × Except PyErr (ℕ × ℕ)).1 := by
    intro h1 Mn x h1e
    have hp := projectHeap_ext h0 P (fun X1 => kernelJ P.rbfE ker X1 none gamma)
      ker lamb dim ns nt aYs aX Mn h1 h1e
    cases hpr : projectHeap P (fun X1 => kernelJ P.rbfE ker X1 none gamma)
        ker lamb dim ns nt aYs aX Mn h1 with
    | mk h2 r2 =>
      rw [hpr] at hp
      cases r2 with
      | error err => exact hp
      | ok aPnew => exact hp
  unfold roundHeap
  dsimp only
  cases aP with
  | none => exact hproj _ _ _ he
  | some ap =>
    dsimp only
    by_cases hlen : (row0 (hread h ap)).length = nt
    · rw [if_pos hlen]
      have hcl := condLoopHeap_ext h0 aYs ap ns (ns + nt) (classRangeQ C) h aE
        (List.replicate (ns + nt) (List.replicate (ns + nt) 0)) he
      cases hclr : condLoopHeap aYs ap ns (ns + nt) (classRangeQ C) h aE
          (List.replicate (ns + nt) (List.replicate (ns + nt) 0)) with
      | mk h1 r =>
        rw [hclr] at hcl
        cases r with
        | error err => exact hcl
        | ok r => exact hproj _ _ _ hcl
    · rw [if_neg hlen]
      exact hproj _ _ _ he

theorem jdaHeapGo_ext (h0 : Heap) (P : NumKernels) (ker : Option String)
    (gamma lamb : ℚ) (dim ns nt C aYs aX : ℕ) :
    ∀ (t : ℕ) (h : Heap) (aE : ℕ) (aP : Option ℕ), extH h0 h →
      extH h0 (jdaHeapGo P ker gamma lamb dim ns nt C aYs aX t h aE aP) := by
  intro t
  induction t with
  | zero => intro h aE aP he; exact he
  | succ t ih =>
    intro h aE aP he
    have hr := roundHeap_ext h0 P ker gamma lamb dim ns nt C aYs aX h aE aP he
    unfold jdaHeapGo
    cases hrh : roundHeap P ker gamma lamb dim ns nt C aYs aX h aE aP with
    | mk h1 r =>
      rw [hrh] at hr
      cases r with
      | error err => exact hr
      | ok r => exact ih h1 r.1 (some r.2) hr

theorem jdaFitPredictHeap_ext (h0 : Heap) (P : NumKernels) (ker : Option String)
    (gamma lamb : ℚ) (dim T aXs aYs aXt aYt : ℕ) :
    extH h0 (jdaFitPredictHeap P ker gamma lamb dim T aXs aYs aXt aYt h0) := by
  unfold jdaFitPredictHeap
  dsimp only
  exact jdaHeapGo_ext h0 P ker gamma lamb dim _ _ _ aYs _ T _ _ none
    (extH_alloc _ _ _ (extH_alloc _ _ _ (extH_alloc _ _ _ (extH_refl h0))))

theorem tcaFitPredictHeap_ext (h0 : Heap) (P : NumKernels) (ker : Option String)
    (gamma lamb : ℚ) (dim aXs aYs aXt aYt : ℕ) :
    extH h0 (tcaFitPredictHeap P ker gamma lamb dim aXs aYs aXt aYt h0) := by
  unfold tcaFitPredictHeap
  dsimp only
  exact projectHeap_ext h0 P _ ker lamb _ _ _ _ _ _ _
    (extH_alloc _ _ _ (extH_alloc _ _ _ (extH_alloc _ _ _ (extH_refl h0))))

/-! ## Helper lemmas for the driver theorems -/

/-- Probe: the `(i,j)` entry of a successfully built matrix (0 on error). -/
def okEntry {n : ℕ} (r : Except PyErr (Mat n)) (i j : Fin n) : ℚ :=
  match r with
  | .ok M => M i j
  | .error _ => 0

theorem mem_classRangeZ {C : ℕ} {c : ℤ} :
    c ∈ classRangeZ C ↔ 1 ≤ c ∧ c ≤ (C : ℤ) := by
  unfold classRangeZ
  rw [List.mem_map]
  constructor
  · rintro ⟨k, hk, rfl⟩
    rw [List.mem_range] at hk
    omega
  · rintro ⟨h1, h2⟩
    refine ⟨(c - 1).toNat, ?_, ?_⟩
    · rw [List.mem_range]
      omega
    · omega

theorem srcCount_eq_zero_iff {ns : ℕ} (Ys : Fin ns → ℤ) (c : ℤ) :
    srcCount Ys c = 0 ↔ c ∉ Finset.image Ys Finset.univ := by
  rw [srcCount, Finset.card_eq_zero, Finset.filter_eq_empty_iff]
  constructor
  · intro h hmem
    obtain ⟨i, _, hi⟩ := Finset.mem_image.mp hmem
    exact h (Finset.mem_univ i) hi
  · intro h i _ hi
    exact h (Finset.mem_image.mpr ⟨i, Finset.mem_univ i, hi⟩)

/-- If the distinct source labels are not exactly `{1, …, C}`, some class in
the loop range has no source sample. -/
theorem exists_uncovered_class {ns : ℕ} (Ys : Fin ns → ℤ)
    (hne : Finset.image Ys Finset.univ ≠ Finset.Icc 1 (numClasses Ys : ℤ)) :
    ∃ c : ℤ, c ∈ Finset.Icc 1 (numClasses Ys : ℤ) ∧ srcCount Ys c = 0 := by
  by_contra hall
  push_neg at hall
  have hsub : Finset.Icc 1 (numClasses Ys : ℤ) ⊆ Finset.image Ys Finset.univ := by
    intro c hc
    have hnz := hall c hc
    by_contra hnotmem
    exact hnz ((srcCount_eq_zero_iff Ys c).mpr hnotmem)
  have hcard : (Finset.image Ys Finset.univ).card ≤
      (Finset.Icc 1 (numClasses Ys : ℤ)).card := by
    rw [Int.card_Icc]
    have : ((numClasses Ys : ℤ) + 1 - 1).toNat = numClasses Ys := by omega
    rw [this]
    exact le_of_eq rfl
  exact hne (Finset.eq_of_subset_of_card_le hsub hcard).symm

/-- A zero source count or zero pseudo count for any visited class makes the
conditional loop raise `ZeroDivisionError`. -/
theorem condGo_error {ns nt : ℕ} (Ys : Fin ns → ℤ) (p : Fin nt → ℤ) :
    ∀ (cs : List ℤ) (acc : Vec (ns + nt) × Mat (ns + nt)),
      (∃ c ∈ cs, srcCount Ys c = 0 ∨ tgtCount p c = 0) →
      condGo Ys p cs acc = .error .zeroDivision := by
  intro cs
  induction cs with
  | nil => rintro acc ⟨c, hc, _⟩; cases hc
  | cons a rest ih =>
    rintro acc ⟨c, hc, hbad⟩
    by_cases hs : srcCount Ys a = 0
    · simp [condGo, classVec, hs]
    · by_cases ht : tgtCount p a = 0
      · simp [condGo, classVec, hs, ht]
      · have hca : c ≠ a := by
          rintro rfl
          rcases hbad with h | h
          · exact hs h
          · exact ht h
        have hcrest : c ∈ rest := by
          rcases List.mem_cons.mp hc with h | h
          · exact absurd h hca
          · exact h
        simp only [condGo, classVec, hs, ht, if_false, if_neg hs, if_neg ht]
        exact ih _ ⟨c, hcrest, hbad⟩

/-- Every class in the loop range has source and pseudo-labelled target
samples. -/
def coversAll {ns nt : ℕ} (Ys : Fin ns → ℤ) (C : ℕ) (p : Fin nt → ℤ) : Prop :=
  ∀ c ∈ classRangeZ C, srcCount Ys c ≠ 0 ∧ tgtCount p c ≠ 0

instance {ns nt : ℕ} (Ys : Fin ns → ℤ) (C : ℕ) (p : Fin nt → ℤ) :
    Decidable (coversAll Ys C p) := by
  unfold coversAll
  infer_instance

theorem condGo_ok {ns nt : ℕ} (Ys : Fin ns → ℤ) (p : Fin nt → ℤ) :
    ∀ (cs : List ℤ) (acc : Vec (ns + nt) × Mat (ns + nt)),
      (∀ c ∈ cs, srcCount Ys c ≠ 0 ∧ tgtCount p c ≠ 0) →
      ∃ v, condGo Ys p cs acc = .ok v := by
  intro cs
  induction cs with
  | nil => exact fun acc _ => ⟨acc, rfl⟩
  | cons a rest ih =>
    intro acc hall
    have ha := hall a (List.mem_cons_self a rest)
    simp only [condGo, classVec, if_neg ha.1, if_neg ha.2]
    exact ih _ fun c hc => hall c (List.mem_cons_of_mem a hc)

theorem condLoop_ok {ns nt : ℕ} (Ys : Fin ns → ℤ) (p : Fin nt → ℤ) (C : ℕ)
    (e0 : Vec (ns + nt)) (hcov : coversAll Ys C p) :
    ∃ v, condLoop Ys p C e0 = .ok v :=
  condGo_ok Ys p (classRangeZ C) _ hcov

/-- A round from a state whose pseudo-labels (if any) cover every class
succeeds, and the new pseudo-labels are the prediction from the round's
raw alignment matrix. -/
theorem roundBody_ok {ns nt : ℕ} (predict : Mat (ns + nt) → (Fin nt → ℤ))
    (Ys : Fin ns → ℤ) (yt : Fin nt → ℤ) (C : ℕ) (s : JDAState ns nt)
    (hs : s.pseudo = none ∨ ∃ p, s.pseudo = some p ∧ coversAll Ys C p) :
    ∃ r : JDAState ns nt × ℚ × Mat (ns + nt),
      roundBody predict Ys (some yt) C s = .ok r ∧
        r.1.pseudo = some (predict r.2.2) := by
  rcases hs with hnone | ⟨p, hp, hcov⟩
  · simp only [roundBody, hnone]
    exact ⟨_, rfl, rfl⟩
  · obtain ⟨v, hv⟩ := condLoop_ok Ys p C s.e hcov
    simp only [roundBody, hp, hv]
    exact ⟨_, rfl, rfl⟩

/-- The main driver induction: from any reachable state, `t ≥ 1` further
rounds (with `Yt` supplied and every prediction covering all classes)
succeed, append exactly `t` accuracies, and return the last appended
accuracy together with the last prediction. -/
theorem jdaRun_ok {ns nt : ℕ} (predict : Mat (ns + nt) → (Fin nt → ℤ))
    (Ys : Fin ns → ℤ) (yt : Fin nt → ℤ) (C : ℕ)
    (hcov : ∀ M, coversAll Ys C (predict M)) :
    ∀ (t : ℕ), 1 ≤ t → ∀ (s : JDAState ns nt) (accs : List ℚ) (aprev : Option ℚ),
      (s.pseudo = none ∨ ∃ M, s.pseudo = some (predict M)) →
      ∃ (a : ℚ) (p : Fin nt → ℤ) (rest : List ℚ) (pre : List ℚ),
        jdaRun predict Ys (some yt) C t s accs aprev = .ok (a, some p, accs ++ rest) ∧
          rest.length = t ∧ rest = pre ++ [a] := by
  intro t
  induction t with
  | zero => intro h; omega
  | succ t ih =>
    intro _ s accs aprev hinv
    have hs : s.pseudo = none ∨ ∃ p, s.pseudo = some p ∧ coversAll Ys C p := by
      rcases hinv with h | ⟨M, hM⟩
      · exact .inl h
      · exact .inr ⟨predict M, hM, hcov M⟩
    obtain ⟨r, hr, hp⟩ := roundBody_ok predict Ys yt C s hs
    by_cases ht : t = 0
    · subst ht
      refine ⟨r.2.1, predict r.2.2, [r.2.1], [], ?_, rfl, rfl⟩
      simp only [jdaRun, hr, hp]
    · have ht1 : 1 ≤ t := by omega
      obtain ⟨a, p, rest, pre, hrun, hlen, hform⟩ :=
        ih ht1 r.1 (accs ++ [r.2.1]) (some r.2.1) (.inr ⟨r.2.2, hp⟩)
      refine ⟨a, p, r.2.1 :: rest, r.2.1 :: pre, ?_, by simp [hlen], by simp [hform]⟩
      simp only [jdaRun, hr]
      rw [hrun]
      simp

/-- Cast of the squared Frobenius norm to the reals. -/
theorem frobSq_cast {n : ℕ} (M : Mat n) :
    ((frobSq M : ℚ) : ℝ) = ∑ i, ∑ j, ((M i j : ℚ) : ℝ) ^ 2 := by
  rw [frobSq]
  push_cast
  rfl

/-- Dividing a rational matrix by a real number whose square is its squared
Frobenius norm yields a matrix of unit Frobenius norm: the content of the
source line `M = M / np.linalg.norm(M, 'fro')`. -/
theorem sum_sq_div_frob {n : ℕ} (M : Mat n) (s : ℝ)
    (hs2 : s ^ 2 = ((frobSq M : ℚ) : ℝ)) (hs : s ≠ 0) :
    ∑ i, ∑ j, (((M i j : ℚ) : ℝ) / s) ^ 2 = 1 := by
  have h1 : ∑ i, ∑ j, (((M i j : ℚ) : ℝ) / s) ^ 2
      = (∑ i, ∑ j, ((M i j : ℚ) : ℝ) ^ 2) / s ^ 2 := by
    rw [Finset.sum_div]
    refine Finset.sum_congr rfl fun i _ => ?_
    rw [Finset.sum_div]
    refine Finset.sum_congr rfl fun j _ => ?_
    rw [div_pow]
  rw [h1, ← frobSq_cast, ← hs2, div_self (pow_ne_zero 2 hs)]

/-- Models `M0 = C · e·eᵀ` and `M_TCA = Q·Qᵀ` with the same stacking vector, so the
squared Frobenius norms differ exactly by `C ^ 2`. -/
theorem frobSq_jdaM0raw (ns nt : ℕ) (Ys : Fin ns → ℤ) :
    frobSq (jdaM0raw ns nt Ys) = (numClasses Ys : ℚ) ^ 2 * frobSq (tcaMraw ns nt) := by
  unfold frobSq
  rw [Finset.mul_sum]
  refine Finset.sum_congr rfl fun i _ => ?_
  rw [Finset.mul_sum]
  refine Finset.sum_congr rfl fun j _ => ?_
  show (eMarg ns nt i * eMarg ns nt j * (numClasses Ys : ℚ)) ^ 2
      = (numClasses Ys : ℚ) ^ 2 * (tcaQ ns nt i * tcaQ ns nt j) ^ 2
  have he : eMarg ns nt = tcaQ ns nt := rfl
  rw [he]
  ring

/-! ## Claim theorems -/

/-- C2 (counterexample).  The claim "`M0 = C·e·eᵀ` with `e` the marginal
weighting vector holds in every iteration" is false: the conditional class
loop rebinds the variable `e`, so from round 2 on `M0` is built from the
previous round's last class-conditional vector.  Concretely, with
`ns = nt = 2`, `Ys = (1, 2)`, pseudo-labels `(1, 2)` every round, the `M0`
computed at entry of round 2 has entry `(0,0) = 0`, whereas the marginal
`C·e·eᵀ` has entry `(0,0) = 1/2`. -/
theorem jda_M0_clobbered_counterexample :
    M0At (fun _ => (![1, 2] : Fin 2 → ℤ)) (![1, 2] : Fin 2 → ℤ) (some ![1, 2]) 2 ≠
      .ok (M0mat (numClasses (![1, 2] : Fin 2 → ℤ)) (eMarg 2 2)) := by
  intro h
  have hval : (0 : ℚ) * 0 * ((2 : ℕ) : ℚ)
      = (1 / ((2 : ℕ) : ℚ)) * (1 / ((2 : ℕ) : ℚ)) * ((2 : ℕ) : ℚ) := by
    calc (0 : ℚ) * 0 * ((2 : ℕ) : ℚ)
        = okEntry (M0At (fun _ => (![1, 2] : Fin 2 → ℤ)) (![1, 2] : Fin 2 → ℤ)
            (some ![1, 2]) 2) 0 0 := rfl
      _ = okEntry (.ok (M0mat (numClasses (![1, 2] : Fin 2 → ℤ)) (eMarg 2 2))) 0 0 := by
          rw [h]
      _ = (1 / ((2 : ℕ) : ℚ)) * (1 / ((2 : ℕ) : ℚ)) * ((2 : ℕ) : ℚ) := rfl
  norm_num at hval

/-- C2 (amended).  `M0 = C·e·eᵀ` with `e` the *marginal* weighting vector
holds in round 0 and in round 1 (the round-0 class loop is skipped because
no pseudo-labels exist, so `e` is still unclobbered at entry of round 1);
from round 2 on, `e` has been overwritten by the last class's conditional
vector of the previous round (see the counterexample). -/
theorem jda_M0_marginal_first_two_rounds :
    ∀ (ns nt : ℕ) (predict : Mat (ns + nt) → (Fin nt → ℤ)) (Ys : Fin ns → ℤ)
      (yt : Fin nt → ℤ) (t : ℕ), t ≤ 1 →
      M0At predict Ys (some yt) t = .ok (M0mat (numClasses Ys) (eMarg ns nt)) := by
  intro ns nt predict Ys yt t ht
  interval_cases t
  · rfl
  · rfl

theorem jda_M0_marginal_first_two_rounds_witness :
    (1 ≤ 1) ∧
      M0At (fun _ => (![1] : Fin 1 → ℤ)) (![1] : Fin 1 → ℤ) (some ![1]) 1 =
        .ok (M0mat (numClasses (![1] : Fin 1 → ℤ)) (eMarg 1 1)) :=
  ⟨le_refl 1, jda_M0_marginal_first_two_rounds 1 1 (fun _ => ![1]) ![1] ![1] 1 (le_refl 1)⟩

/-- C3 (code bug, evaluated at the failing input).  With `Ys = (1, 2)` and
round pseudo-labels `(1, 1)` (class 2 has zero pseudo-labelled target
samples), the conditional-term construction raises `ZeroDivisionError` at
the scalar division `-1 / len(Y_tar_pseudo[Y_tar_pseudo == 2])` instead of
contributing zero for class 2: `len()` returns a Python `int`, so the
division raises *before* any `±Inf` can be produced, and the zeroing guard
`e[np.isinf(e)] = 0` on the next line can never see the degenerate value
it was written to absorb. -/
theorem jda_zero_pseudo_count_raises :
    condLoop (![1, 2] : Fin 2 → ℤ) (![1, 1] : Fin 2 → ℤ) 2 (eMarg 2 2) =
      .error .zeroDivision := rfl

/-- C5 (counterexample).  "For every valid input and every `T ≥ 1`,
`fit_predict` executes exactly `T` iterations ... and returns" is false:
with one target sample (`nt = 1`) and two source classes (`Ys = (1, 2)`),
*any* round-1 prediction misses one class, so round 2 raises
`ZeroDivisionError` and the driver aborts without returning. -/
theorem jda_missing_class_aborts_run :
    fitPredict (fun _ => (![1] : Fin 1 → ℤ)) (![1, 2] : Fin 2 → ℤ) (some ![1]) 2 =
      .error .zeroDivision := rfl

/-- C5 (amended).  Provided every round's pseudo-label vector gives every
class of `1..C` at least one source and one target sample (so that no
round raises `ZeroDivisionError`), `fit_predict` with `Yt` supplied and
`T ≥ 1` executes exactly `T` rounds — there is no convergence check, and
the bound does not depend on how the predictions evolve, so oscillating
pseudo-labels do not terminate it early — and returns the final round's
pseudo-labels, the final accuracy, and a `T`-entry accuracy history whose
last entry is the returned accuracy. -/
theorem jda_runs_exactly_T_rounds :
    ∀ (ns nt : ℕ) (predict : Mat (ns + nt) → (Fin nt → ℤ)) (Ys : Fin ns → ℤ)
      (yt : Fin nt → ℤ) (T : ℕ), 1 ≤ T →
      (∀ M, coversAll Ys (numClasses Ys) (predict M)) →
      ∃ (a : ℚ) (p : Fin nt → ℤ) (accs : List ℚ),
        fitPredict predict Ys (some yt) T = .ok (a, some p, accs) ∧
          accs.length = T ∧ accs.getLast? = some a := by
  intro ns nt predict Ys yt T hT hcov
  obtain ⟨a, p, rest, pre, hrun, hlen, hform⟩ :=
    jdaRun_ok predict Ys yt (numClasses Ys) hcov T hT ⟨eMarg ns nt, none⟩ [] none
      (.inl rfl)
  refine ⟨a, p, rest, ?_, hlen, ?_⟩
  · simpa [fitPredict] using hrun
  · rw [hform]
    exact List.getLast?_concat _

theorem jda_runs_exactly_T_rounds_witness :
    (1 ≤ 2) ∧
      (∀ M : Mat (1 + 1), coversAll (![1] : Fin 1 → ℤ)
        (numClasses (![1] : Fin 1 → ℤ)) (![1] : Fin 1 → ℤ)) ∧
      ∃ (a : ℚ) (p : Fin 1 → ℤ) (accs : List ℚ),
        fitPredict (fun _ => (![1] : Fin 1 → ℤ)) (![1] : Fin 1 → ℤ) (some ![1]) 2 =
          .ok (a, some p, accs) ∧ accs.length = 2 ∧ accs.getLast? = some a := by
  have hcov : ∀ M : Mat (1 + 1), coversAll (![1] : Fin 1 → ℤ)
      (numClasses (![1] : Fin 1 → ℤ)) (![1] : Fin 1 → ℤ) := by
    intro M
    decide
  exact ⟨by omega, hcov,
    jda_runs_exactly_T_rounds 1 1 (fun _ => ![1]) ![1] ![1] 2 (by omega) hcov⟩

/-- C6 (counterexample).  The eigenvector slice `A = V[:, ind[:dim]]` does
not raise `DimensionError` in either direction of the claimed "if and only
if": with 2 available eigenpairs, `dim = 5` returns the 2 available
columns normally (Python slicing truncates silently), and `dim = 0`
returns an empty basis normally. -/
theorem dim_slice_no_error_counterexample :
    (selectBasis [(1, 0), (2, 0)] [[1, 0], [0, 1]] 5 = [[1, 0], [0, 1]]) ∧
      (selectBasis [(1, 0), (2, 0)] [[1, 0], [0, 1]] 0 = []) := ⟨rfl, rfl⟩

/-- C6 (amended).  The projector never raises for any `dim`: the slice
`ind[:dim]` silently truncates, so the basis always has
`min dim (number of eigenpairs)` columns; in particular `dim = 0` yields an
empty basis without error, and the boundary `dim = number of eigenpairs`
(the pooled sample count in the kernel case) yields exactly `dim`
eigenvectors. -/
theorem dim_slice_truncates_silently :
    (∀ (w : List (ℚ × ℚ)) (V : List (List ℚ)) (dim : ℕ),
      (selectBasis w V dim).length = min dim w.length) ∧
    (∀ (w : List (ℚ × ℚ)) (V : List (List ℚ)),
      (selectBasis w V w.length).length = w.length) := by
  constructor
  · intro w V dim
    simp [selectBasis, argsortNp_length]
  · intro w V
    simp [selectBasis, argsortNp_length]

/-- C7 (counterexample).  For the unrecognised kernel name `"poly"` the
kernel evaluator returns the value `None` normally (`.ok none`): it does
not fail with any `ConfigurationError`-like exception. -/
theorem kernel_unrecognized_returns_none_value :
    kernelJ (fun _ _ _ => 0) (some "poly") [[1]] none 1 = .ok none := rfl

/-- C7 (amended).  For every kernel name that is neither the falsy sentinel
(`None`/`""`, treated as identity) nor one of `"primal"`, `"linear"`,
`"rbf"`, the evaluator falls through every branch and returns the `None`
sentinel — deterministically and without side effects (it is a pure
function of its arguments), but it does not raise. -/
theorem kernel_unrecognized_yields_none :
    ∀ (rbfE : List ℚ → List ℚ → ℚ → ℚ) (ker : Option String) (X1 : PyArr)
      (X2 : Option PyArr) (gamma : ℚ),
      kerFalsy ker = false → ker ≠ some "primal" → ker ≠ some "linear" →
      ker ≠ some "rbf" → kernelJ rbfE ker X1 X2 gamma = .ok none := by
  intro rbfE ker X1 X2 gamma h0 h1 h2 h3
  have hc1 : ¬(kerFalsy ker = true ∨ ker = some "primal") := by
    rintro (hk | hk)
    · rw [h0] at hk
      cases hk
    · exact h1 hk
  unfold kernelJ
  rw [if_neg hc1, if_neg h2, if_neg h3]

theorem kernel_unrecognized_yields_none_witness :
    (kerFalsy (some "poly") = false) ∧ (some "poly" ≠ some "primal") ∧
      (some "poly" ≠ some "linear") ∧ (some "poly" ≠ some "rbf") ∧
      kernelJ (fun _ _ _ => 1) (some "poly") [[2]] none 1 = .ok none :=
  ⟨rfl, by decide, by decide, by decide,
    kernel_unrecognized_yields_none (fun _ _ _ => 1) (some "poly") [[2]] none 1
      rfl (by decide) (by decide) (by decide)⟩

/-- C8 (counterexample).  Calling `fit_predict` with `Yt = None` does not
run to completion with the accuracy omitted: the unconditional
`acc = sklearn.metrics.accuracy_score(Yt, Y_tar_pseudo)` in round 1
rejects the `None` ground-truth vector and the call raises.  (`Yt` is a
required positional parameter; omitting it entirely is a `TypeError` at
call time.) -/
theorem fit_predict_absent_Yt_raises :
    fitPredict (fun _ => (![1] : Fin 1 → ℤ)) (![1] : Fin 1 → ℤ) none 1 =
      .error .invalidTarget := rfl

/-- C8 (amended).  `Yt` is required, not optional: for every input and every
`T ≥ 1`, running `fit_predict` without a target label vector raises in
round 1 at the unconditional accuracy computation, rather than returning
predictions with the accuracy fields omitted. -/
theorem fit_predict_requires_Yt :
    ∀ (ns nt : ℕ) (predict : Mat (ns + nt) → (Fin nt → ℤ)) (Ys : Fin ns → ℤ)
      (T : ℕ), 1 ≤ T → fitPredict predict Ys none T = .error .invalidTarget := by
  intro ns nt predict Ys T hT
  obtain ⟨t, rfl⟩ : ∃ t, T = t + 1 := ⟨T - 1, by omega⟩
  rfl

theorem fit_predict_requires_Yt_witness :
    (1 ≤ 1) ∧
      fitPredict (fun _ => (![1] : Fin 1 → ℤ)) (![1, 1] : Fin 2 → ℤ) none 1 =
        .error .invalidTarget :=
  ⟨le_refl 1, fit_predict_requires_Yt 2 1 (fun _ => ![1]) ![1, 1] 1 (le_refl 1)⟩

/-- C1.  JDA with `T = 1` matches the one-shot TCA fit: (i) the raw
alignment matrix of JDA's only round is `M0 = C·e·eᵀ` with the marginal
`e` and a zero conditional term (no pseudo-labels exist in round 0);
(ii) the two notebooks' `kernel` functions agree at every in-repository
call (`X2 = None`), for every kernel name and every rbf Gram; (iii) the
factor `C` cancels under Frobenius normalisation: dividing JDA's matrix by
its Frobenius norm `s₁` and TCA's `Q·Qᵀ` by its Frobenius norm `s₂` yields
the *same* real matrix, so both pipelines hand the identical `M` (and
hence identical `a = K·M·Kᵀ + lamb·I`, `b = K·H·Kᵀ`, eigenvectors,
projected features, predictions and accuracy) to the downstream steps. -/
theorem jda_T1_matches_tca :
    ∀ (ns nt : ℕ) (predict : Mat (ns + nt) → (Fin nt → ℤ)) (Ys : Fin ns → ℤ)
      (yt : Fin nt → ℤ) (s₁ s₂ : ℝ),
      0 < numClasses Ys → 0 ≤ s₁ → 0 ≤ s₂ →
      s₁ ^ 2 = ((frobSq (jdaM0raw ns nt Ys) : ℚ) : ℝ) →
      s₂ ^ 2 = ((frobSq (tcaMraw ns nt) : ℚ) : ℝ) →
      (MrawAt predict Ys (some yt) 0 = .ok (jdaM0raw ns nt Ys)) ∧
        (∀ (rbfE : List ℚ → List ℚ → ℚ → ℚ) (ker : Option String) (X1 : PyArr)
          (gamma : ℚ),
          kernelJ rbfE ker X1 none gamma = kernelT rbfE ker X1 none gamma) ∧
        ((fun i j => ((jdaM0raw ns nt Ys i j : ℚ) : ℝ) / s₁) =
          fun i j => ((tcaMraw ns nt i j : ℚ) : ℝ) / s₂) := by
  intro ns nt predict Ys yt s₁ s₂ hC hs1nn hs2nn hsq1 hsq2
  refine ⟨?_, ?_, ?_⟩
  · have hzero : (fun i j => M0mat (numClasses Ys) (eMarg ns nt) i j
        + (fun _ _ => (0 : ℚ)) i j) = jdaM0raw ns nt Ys := by
      funext i j
      exact add_zero _
    calc MrawAt predict Ys (some yt) 0
        = .ok (fun i j => M0mat (numClasses Ys) (eMarg ns nt) i j
            + (fun _ _ => (0 : ℚ)) i j) := rfl
      _ = .ok (jdaM0raw ns nt Ys) := by rw [hzero]
  · intro rbfE ker X1 gamma
    unfold kernelJ kernelT
    by_cases h1 : kerFalsy ker = true ∨ ker = some "primal"
    · rw [if_pos h1, if_pos h1]
    · rw [if_neg h1, if_neg h1]
      by_cases h2 : ker = some "linear"
      · rw [if_pos h2, if_pos h2]
        rfl
      · rw [if_neg h2, if_neg h2]
        by_cases h3 : ker = some "rbf"
        · rw [if_pos h3, if_pos h3]
          rfl
        · rw [if_neg h3, if_neg h3]
  · have hCpos : (0 : ℝ) < (numClasses Ys : ℝ) := by exact_mod_cast hC
    have hfr : ((frobSq (jdaM0raw ns nt Ys) : ℚ) : ℝ)
        = (numClasses Ys : ℝ) ^ 2 * ((frobSq (tcaMraw ns nt) : ℚ) : ℝ) := by
      rw [frobSq_jdaM0raw]
      push_cast
      ring
    have hs1sq : s₁ ^ 2 = ((numClasses Ys : ℝ) * s₂) ^ 2 := by
      rw [hsq1, hfr, ← hsq2]
      ring
    have hs1 : s₁ = (numClasses Ys : ℝ) * s₂ := by
      have h2 : 0 ≤ (numClasses Ys : ℝ) * s₂ := mul_nonneg (le_of_lt hCpos) hs2nn
      calc s₁ = Real.sqrt (s₁ ^ 2) := (Real.sqrt_sq hs1nn).symm
        _ = Real.sqrt (((numClasses Ys : ℝ) * s₂) ^ 2) := by rw [hs1sq]
        _ = (numClasses Ys : ℝ) * s₂ := Real.sqrt_sq h2
    funext i j
    have hentry : ((jdaM0raw ns nt Ys i j : ℚ) : ℝ)
        = (numClasses Ys : ℝ) * ((tcaMraw ns nt i j : ℚ) : ℝ) := by
      have hq : jdaM0raw ns nt Ys i j = tcaMraw ns nt i j * (numClasses Ys : ℚ) := rfl
      rw [hq]
      push_cast
      ring
    show ((jdaM0raw ns nt Ys i j : ℚ) : ℝ) / s₁ = ((tcaMraw ns nt i j : ℚ) : ℝ) / s₂
    rw [hentry, hs1, mul_div_mul_left _ _ (ne_of_gt hCpos)]

theorem jda_T1_matches_tca_witness :
    (0 < numClasses (![1, 2] : Fin 2 → ℤ)) ∧ ((0 : ℝ) ≤ 3) ∧ ((0 : ℝ) ≤ 3 / 2) ∧
      ((3 : ℝ) ^ 2 = ((frobSq (jdaM0raw 2 1 ![1, 2]) : ℚ) : ℝ)) ∧
      ((3 / 2 : ℝ) ^ 2 = ((frobSq (tcaMraw 2 1) : ℚ) : ℝ)) ∧
      ((MrawAt (fun _ => (![1] : Fin 1 → ℤ)) (![1, 2] : Fin 2 → ℤ) (some ![1]) 0 =
          .ok (jdaM0raw 2 1 ![1, 2])) ∧
        (∀ (rbfE : List ℚ → List ℚ → ℚ → ℚ) (ker : Option String) (X1 : PyArr)
          (gamma : ℚ),
          kernelJ rbfE ker X1 none gamma = kernelT rbfE ker X1 none gamma) ∧
        ((fun i j => ((jdaM0raw 2 1 ![1, 2] i j : ℚ) : ℝ) / 3) =
          fun i j => ((tcaMraw 2 1 i j : ℚ) : ℝ) / (3 / 2))) := by
  have hC : numClasses (![1, 2] : Fin 2 → ℤ) = 2 := by decide
  have hfq : frobSq (jdaM0raw 2 1 ![1, 2]) = 9 := by
    simp [frobSq, jdaM0raw, M0mat, eMarg, splitIdx, Fin.sum_univ_three, hC]
    norm_num
  have hft : frobSq (tcaMraw 2 1) = 9 / 4 := by
    simp [frobSq, tcaMraw, tcaQ, splitIdx, Fin.sum_univ_three]
    norm_num
  have hs1 : (3 : ℝ) ^ 2 = ((frobSq (jdaM0raw 2 1 ![1, 2]) : ℚ) : ℝ) := by
    rw [hfq]
    norm_num
  have hs2 : (3 / 2 : ℝ) ^ 2 = ((frobSq (tcaMraw 2 1) : ℚ) : ℝ) := by
    rw [hft]
    norm_num
  refine ⟨by decide, by norm_num, by norm_num, hs1, hs2, ?_⟩
  exact jda_T1_matches_tca 2 1 (fun _ => ![1]) ![1, 2] ![1] 3 (3 / 2)
    (by decide) (by norm_num) (by norm_num) hs1 hs2

/-- The raw alignment matrix of the only round of a `T = 1` run on the
one-source-sample, one-target-sample instance (used by the C4 witness). -/
def M1w : Mat (1 + 1) := fun i j =>
  M0mat (numClasses (![1] : Fin 1 → ℤ)) (eMarg 1 1) i j + (fun _ _ => (0 : ℚ)) i j

/-- C4.  After every construction of the alignment matrix — in any round
`t` of any JDA run (with or without pseudo-labels; the matrix construction
does not involve the kernel, so this covers every kernel type), and for
TCA's one-shot `M = Q·Qᵀ` — dividing the raw matrix by its (nonzero)
Frobenius norm, as the next source line `M = M / np.linalg.norm(M, 'fro')`
does, produces a matrix of Frobenius norm exactly 1: the sum of squared
entries of the normalised matrix is 1. -/
theorem alignment_matrix_unit_frobenius :
    (∀ (ns nt : ℕ) (predict : Mat (ns + nt) → (Fin nt → ℤ)) (Ys : Fin ns → ℤ)
        (Yt : Option (Fin nt → ℤ)) (t : ℕ) (Mraw : Mat (ns + nt)) (s : ℝ),
        MrawAt predict Ys Yt t = .ok Mraw →
        s ^ 2 = ((frobSq Mraw : ℚ) : ℝ) → s ≠ 0 →
        ∑ i, ∑ j, (((Mraw i j : ℚ) : ℝ) / s) ^ 2 = 1) ∧
    (∀ (ns nt : ℕ) (s : ℝ),
        s ^ 2 = ((frobSq (tcaMraw ns nt) : ℚ) : ℝ) → s ≠ 0 →
        ∑ i, ∑ j, (((tcaMraw ns nt i j : ℚ) : ℝ) / s) ^ 2 = 1) :=
  ⟨fun _ _ _ _ _ _ Mraw s _ hs2 hs => sum_sq_div_frob Mraw s hs2 hs,
    fun ns nt s hs2 hs => sum_sq_div_frob (tcaMraw ns nt) s hs2 hs⟩

theorem alignment_matrix_unit_frobenius_witness :
    (MrawAt (fun _ => (![1] : Fin 1 → ℤ)) (![1] : Fin 1 → ℤ) (some ![1]) 0 = .ok M1w) ∧
      ((2 : ℝ) ^ 2 = ((frobSq M1w : ℚ) : ℝ)) ∧ ((2 : ℝ) ≠ 0) ∧
      (∑ i, ∑ j, (((M1w i j : ℚ) : ℝ) / 2) ^ 2 = 1) := by
  have hC : numClasses (![1] : Fin 1 → ℤ) = 1 := by decide
  have h4 : frobSq M1w = 4 := by
    simp [frobSq, M1w, M0mat, eMarg, splitIdx, Fin.sum_univ_two, hC]
    norm_num
  have hs2 : (2 : ℝ) ^ 2 = ((frobSq M1w : ℚ) : ℝ) := by
    rw [h4]
    norm_num
  exact ⟨rfl, hs2, by norm_num,
    alignment_matrix_unit_frobenius.1 1 1 (fun _ => ![1]) ![1] (some ![1]) 0
      M1w 2 rfl hs2 (by norm_num)⟩

/-- C9.  Neither `JDA.fit_predict` nor `TCA.fit_predict` mutates any
caller-owned array: in the store-level model — where every NumPy
allocation is a fresh cell and the only in-place writes (`e[...] = v`,
`Z /= np.linalg.norm(Z, axis=0)`) hit cells allocated during the call —
every cell that existed before the call (in particular the cells of `Xs`,
`Ys`, `Xt`, `Yt`, wherever they sit) holds the same array afterwards, for
every kernel type, every iteration count, and every instantiation of the
irrational numeric collaborators, including runs that end in an
exception. -/
theorem fit_predict_preserves_caller_arrays :
    ∀ (P : NumKernels) (ker : Option String) (gamma lamb : ℚ)
      (dim T aXs aYs aXt aYt : ℕ) (h0 : Heap) (i : ℕ), i < h0.length →
      hread (jdaFitPredictHeap P ker gamma lamb dim T aXs aYs aXt aYt h0) i =
        hread h0 i ∧
      hread (tcaFitPredictHeap P ker gamma lamb dim aXs aYs aXt aYt h0) i =
        hread h0 i :=
  fun P ker gamma lamb dim T aXs aYs aXt aYt h0 i hi =>
    ⟨(jdaFitPredictHeap_ext h0 P ker gamma lamb dim T aXs aYs aXt aYt).2 i hi,
      (tcaFitPredictHeap_ext h0 P ker gamma lamb dim aXs aYs aXt aYt).2 i hi⟩

/-- Concrete collaborators for the C9 witness. -/
def P0 : NumKernels where
  rbfE := fun _ _ _ => 0
  colNorm := fun A => A
  froNorm := fun A => A
  eigF := fun _ _ => ([], [])
  knn := fun _ _ _ => []

theorem fit_predict_preserves_caller_arrays_witness :
    (0 < ([[[1]], [[1]], [[1]], [[1]]] : Heap).length) ∧
      (hread (jdaFitPredictHeap P0 (some "primal") 1 1 30 1 0 1 2 3
          [[[1]], [[1]], [[1]], [[1]]]) 0 =
        hread ([[[1]], [[1]], [[1]], [[1]]] : Heap) 0 ∧
      hread (tcaFitPredictHeap P0 (some "primal") 1 1 30 0 1 2 3
          [[[1]], [[1]], [[1]], [[1]]]) 0 =
        hread ([[[1]], [[1]], [[1]], [[1]]] : Heap) 0) :=
  ⟨by decide,
    fit_predict_preserves_caller_arrays P0 (some "primal") 1 1 30 1 0 1 2 3
      [[[1]], [[1]], [[1]], [[1]]] 0 (by decide)⟩

/-- C10.  The conditional-term loop is total only under the implicit label
encoding `{distinct source labels} = {1, …, C}` with `C` the distinct
count: whenever that fails, (i) some visited class `c ∈ {1..C}` has zero
source samples, (ii) the loop body raises `ZeroDivisionError` at the
scalar division `1 / len(Ys[Ys == c])` in *every* iteration `t ≥ 1`
(whatever the round's pseudo-label vector is), and (iii) label values
greater than `C` are silently outside the visited range `range(1, C + 1)`
and so are excluded from the conditional term. -/
theorem label_encoding_precondition :
    ∀ (ns nt : ℕ) (Ys : Fin ns → ℤ),
      Finset.image Ys Finset.univ ≠ Finset.Icc 1 (numClasses Ys : ℤ) →
      (∃ c : ℤ, c ∈ Finset.Icc 1 (numClasses Ys : ℤ) ∧ srcCount Ys c = 0) ∧
        (∀ (p : Fin nt → ℤ) (e0 : Vec (ns + nt)),
          condLoop Ys p (numClasses Ys) e0 = .error .zeroDivision) ∧
        (∀ c : ℤ, (numClasses Ys : ℤ) < c → c ∉ classRangeZ (numClasses Ys)) := by
  intro ns nt Ys hne
  obtain ⟨c, hc, hzero⟩ := exists_uncovered_class Ys hne
  refine ⟨⟨c, hc, hzero⟩, ?_, ?_⟩
  · intro p e0
    apply condGo_error
    refine ⟨c, ?_, .inl hzero⟩
    rw [mem_classRangeZ]
    simpa [Finset.mem_Icc] using hc
  · intro d hd hmem
    rw [mem_classRangeZ] at hmem
    omega

theorem label_encoding_precondition_witness :
    (Finset.image (![1, 3] : Fin 2 → ℤ) Finset.univ ≠
        Finset.Icc 1 (numClasses (![1, 3] : Fin 2 → ℤ) : ℤ)) ∧
      ((∃ c : ℤ, c ∈ Finset.Icc 1 (numClasses (![1, 3] : Fin 2 → ℤ) : ℤ) ∧
          srcCount (![1, 3] : Fin 2 → ℤ) c = 0) ∧
        (∀ (p : Fin 1 → ℤ) (e0 : Vec (2 + 1)),
          condLoop ![1, 3] p (numClasses (![1, 3] : Fin 2 → ℤ)) e0 =
            .error .zeroDivision) ∧
        (∀ c : ℤ, (numClasses (![1, 3] : Fin 2 → ℤ) : ℤ) < c →
          c ∉ classRangeZ (numClasses (![1, 3] : Fin 2 → ℤ)))) :=
  ⟨by decide, label_encoding_precondition 2 1 ![1, 3] (by decide)⟩
